import Mathlib

/-!
Verification of `check-commits-email` (src/main.rs) against its specification.

The program is embedded shallowly:

* Rust `&str` / `String` values are modelled as `List Char` (`Str`). All
  separators used by the program (`'@'`, `','`, `'\n'`, `'.'`) are ASCII, so
  char-level modelling agrees with Rust's byte-level operations, and
  lexicographic comparison of code points agrees with Rust's byte-wise
  `String` ordering (UTF-8 preserves code-point order).
* `HashSet<String>` is modelled as a `List Str` together with a `Nodup`
  hypothesis where set-ness matters; `collect` into a set is `List.dedup`.
* The DNS resolver is a parameter `mx : MxLookup` mapping a looked-up host to
  either a resolution error or the list of exchange hostnames rendered as
  text (`Name::to_ascii`), possibly with a trailing dot. This makes
  `Rule::is_match` a pure function of the resolver.
* Fallible Rust code (`Result`) becomes `Except Unit`; the `?` operator on
  the MX lookup is `Except.map`'s error propagation.
* The regex built for a pattern rule is `(?i)^p` where `p` is the rule text
  after `trim`, with `.` replaced by `\.` and `*` by `.*`. That regex is a
  start-anchored, case-insensitive sequence of literal characters and
  unbounded wildcards; `compilePattern` parses the rule text directly into
  that token sequence (`lit c` for an escaped-or-plain literal, `star` for
  `*`). A rule text containing any other regex metacharacter is mapped to
  compilation failure (`none`), matching the `Regex::new`-may-fail /
  skip-the-rule path of the source; the claims under verification never
  exercise such characters. Case-insensitivity is modelled by `Char.toLower`,
  which agrees with the regex crate's folding on ASCII.
-/

namespace CheckCommitsEmail

/-- Strings of the program, as lists of characters. -/
abbrev Str := List Char

/-- Conversion from Lean string literals, for concrete inputs. -/
def strOf (s : String) : Str := s.data

/-- One token of a compiled wildcard pattern: a literal character (matched
case-insensitively) or `*` (any sequence of characters, possibly empty). -/
inductive PatTok where
  | lit (c : Char)
  | star
deriving DecidableEq

/-- Regex metacharacters that the rule text passes through unescaped; a rule
containing one is modelled as failing `Regex::new` (the skip path).
`.` and `*` are absent: the source escapes `.` and rewrites `*` to `.*`. -/
def regexMeta : List Char := ['\\', '(', ')', '[', ']', '{', '}', '|', '+', '?', '^', '$']

/-- `rule.trim().replace(".", "\\.").replace("*", ".*")` compiled by
`Regex::new(&format!("(?i)^{}", pattern))`: `*` becomes a wildcard token,
any other non-metacharacter becomes a case-insensitive literal. -/
def compilePattern : Str → Option (List PatTok)
  | [] => some []
  | c :: rest =>
    if c = '*' then Option.map (fun ts => PatTok.star :: ts) (compilePattern rest)
    else if c ∈ regexMeta then none
    else Option.map (fun ts => PatTok.lit c :: ts) (compilePattern rest)

/-- Does `f` accept some suffix of the string? This is the backtracking of a
`.*` wildcard: it may swallow any number of leading characters. -/
def anySuffix (f : Str → Bool) : Str → Bool
  | [] => f []
  | e :: es => f (e :: es) || anySuffix f es

/-- `Regex::is_match` for the compiled pattern `(?i)^toks`: anchored at the
start of the email, free at the end, literals compared case-insensitively. -/
def patMatches : List PatTok → Str → Bool
  | [], _ => true
  | PatTok.lit _ :: _, [] => false
  | PatTok.lit c :: ts, e :: es => (c.toLower == e.toLower) && patMatches ts es
  | PatTok.star :: ts, es => anySuffix (patMatches ts) es

/-- The `Rule` enum of the source: a compiled regex or an MX-record rule
holding the expected exchange host text. -/
inductive Rule where
  | regex (toks : List PatTok)
  | mxRecord (record : Str)
deriving DecidableEq

/-- The DNS resolver, abstracted: `mx host` is either a resolution error or
the list of exchange hostnames in `to_ascii` form (possibly dot-terminated). -/
abbrev MxLookup := Str → Except Unit (List Str)

/-- Rust `str::split(sep)`: the list of fields, always non-empty (a string
with no separator is one field; each separator adds a field). -/
def splitOn (sep : Char) : Str → List Str
  | [] => [[]]
  | c :: rest =>
    if c = sep then [] :: splitOn sep rest
    else
      match splitOn sep rest with
      | [] => [[c]]
      | f :: fs => (c :: f) :: fs

/-- Rust `char::is_whitespace`, restricted to the ASCII whitespace the
claims exercise. -/
def wsChar (c : Char) : Bool := c.isWhitespace

/-- Rust `str::trim`: drop leading and trailing whitespace. -/
def trimStr (s : Str) : Str :=
  ((s.dropWhile wsChar).reverse.dropWhile wsChar).reverse

/-- The literal rule-line marker `"MX-RECORD,"`. -/
def mxPref : Str := strOf "MX-RECORD,"

/-- One iteration of the `filter_map` in `compile_rules`: an `MX-RECORD,`
line keeps the last field of `split(",")` (`Iterator::last`); any other
line is trimmed and compiled as a wildcard pattern; `none` is the skip
path (a diagnostic is printed, which the embedding drops). -/
def compileRule (rule : Str) : Option Rule :=
  if mxPref.isPrefixOf rule then
    match (splitOn ',' rule).getLast? with
    | some v => some (Rule.mxRecord v)
    | none => none
  else
    Option.map Rule.regex (compilePattern (trimStr rule))

/-- `compile_rules`: compile every rule, dropping the ones that fail. -/
def compile_rules (bad_rules : List Str) : List Rule :=
  bad_rules.filterMap compileRule

/-- The trailing-dot normalisation applied to each exchange hostname:
`if str.ends_with('.') { str.remove(str.len() - 1); }` — strip exactly one
trailing dot when present. -/
def stripDot (s : Str) : Str :=
  if s.getLast? = some '.' then s.dropLast else s

/-- `Rule::is_match`. A regex rule never fails. An MX rule takes
`email.split('@').next_back()` as the host (the text after the last `@`;
the whole email when it has no `@` — `next_back` on `split` is always
`Some`, so the `else` branch returning `Ok(false)` is unreachable), looks
it up, propagates a lookup error (`?`), and otherwise tests whether any
returned exchange, after `stripDot`, equals the expected record exactly. -/
def is_match (mx : MxLookup) : Rule → Str → Except Unit Bool
  | Rule.regex toks, email => Except.ok (patMatches toks email)
  | Rule.mxRecord record, email =>
    match (splitOn '@' email).getLast? with
    | some host =>
        Except.map (fun exchanges => exchanges.any (fun v => stripDot v == record)) (mx host)
    | none => Except.ok false

/-- `Result::unwrap_or`: a failed rule evaluation counts as its default. -/
def unwrapOr (r : Except Unit Bool) (d : Bool) : Bool :=
  match r with
  | Except.ok b => b
  | Except.error _ => d

/-- Byte/code-point ascending order on strings (Rust `String` `Ord`):
lexicographic comparison of characters. -/
def strLe : Str → Str → Bool
  | [], _ => true
  | _ :: _, [] => false
  | a :: as, b :: bs => decide (a < b) || (a == b && strLe as bs)

/-- `find_violations`: keep the emails matched by at least one rule, a rule
error counting as no match (`unwrap_or(false)`), and sort ascending
(`sort_unstable`). -/
def find_violations (mx : MxLookup) (commit_emails : List Str) (regex_rules : List Rule) : List Str :=
  (commit_emails.filter
      (fun email => regex_rules.any (fun re => unwrapOr (is_match mx re email) false))).mergeSort
    strLe

/-- Strip the `'\r'` of a `"\r\n"` line ending. -/
def stripCR (l : Str) : Str :=
  if l.getLast? = some '\r' then l.dropLast else l

/-- Rust `str::lines`: split at `'\n'`, dropping a `'\r'` immediately before
each split point; a final empty segment (trailing newline) yields no line;
a last line without a newline keeps a lone trailing `'\r'`. -/
def linesOf (s : Str) : List Str :=
  let parts := splitOn '\n' s
  let body := parts.dropLast.map stripCR
  match parts.getLast? with
  | some [] => body
  | some l => body ++ [l]
  | none => body

/-- `read_emails`: every line of the file becomes an element of the set —
no comment or blank-line filtering; `collect` into a `HashSet` collapses
exact duplicates only. -/
def read_emails (content : Str) : List Str :=
  (linesOf content).dedup

/-- Lower-casing of a whole string (spec-side helper for the
case-insensitivity statements). -/
def toLowerStr (s : Str) : Str := s.map Char.toLower

/-- Spec-side predicate: `pat` is a case-insensitive prefix of `s`. -/
def prefCI : Str → Str → Bool
  | [], _ => true
  | _ :: _, [] => false
  | p :: ps, e :: es => (p.toLower == e.toLower) && prefCI ps es

/-- Spec-side predicate: `pat` occurs case-insensitively somewhere in `s`
(as a prefix of some suffix). -/
def containsCI (pat : Str) : Str → Bool
  | [] => prefCI pat []
  | e :: es => prefCI pat (e :: es) || containsCI pat es

/-- Spec-side predicate of claim C1: `s` ends in `pat`, case-insensitively. -/
def endsWithCI (pat s : Str) : Bool :=
  (toLowerStr pat).isSuffixOf (toLowerStr s)

/-- A resolver for which every lookup fails. -/
def mxNone : MxLookup := fun _ => Except.error ()

/-- A resolver that resolves the literal text `abc` (an email with no `@`)
to the exchange `host.`, and fails everything else. -/
def mxAbc : MxLookup :=
  fun h => if h == strOf "abc" then Except.ok [strOf "host."] else Except.error ()

/-- A resolver that resolves `d.com` to two exchanges and fails the rest. -/
def mxDcom : MxLookup :=
  fun h =>
    if h == strOf "d.com" then Except.ok [strOf "mx.d.com.", strOf "Alt.example."]
    else Except.error ()

/-! ### Helper lemmas -/

/-- `str::split` always yields at least one field. -/
theorem splitOn_ne_nil (sep : Char) : ∀ s : Str, splitOn sep s ≠ []
  | [] => by simp [splitOn]
  | c :: rest => by
    by_cases hc : c = sep
    · simp [splitOn, hc]
    · simp only [splitOn, if_neg hc]
      cases h : splitOn sep rest with
      | nil => simp
      | cons f fs => simp

/-- A string without the separator is a single field. -/
theorem splitOn_of_not_mem (sep : Char) : ∀ s : Str, sep ∉ s → splitOn sep s = [s]
  | [], _ => by simp [splitOn]
  | c :: rest, h => by
    have hc : ¬c = sep := fun hcs => h (hcs ▸ List.mem_cons_self c rest)
    have hr : sep ∉ rest := fun hm => h (List.mem_cons_of_mem c hm)
    simp only [splitOn, if_neg hc, splitOn_of_not_mem sep rest hr]

/-- A string containing the separator splits into at least two fields. -/
theorem two_le_splitOn_of_mem (sep : Char) : ∀ s : Str, sep ∈ s → 2 ≤ (splitOn sep s).length
  | [], h => absurd h (List.not_mem_nil sep)
  | c :: rest, h => by
    by_cases hc : c = sep
    · simp only [splitOn, if_pos hc, List.length_cons]
      have := List.length_pos.mpr (splitOn_ne_nil sep rest)
      omega
    · have hr : sep ∈ rest := by
        rcases List.mem_cons.mp h with h1 | h1
        · exact absurd h1.symm hc
        · exact h1
      have ih := two_le_splitOn_of_mem sep rest hr
      simp only [splitOn, if_neg hc]
      cases hsp : splitOn sep rest with
      | nil => exact absurd hsp (splitOn_ne_nil sep rest)
      | cons f fs =>
        rw [hsp] at ih
        simpa using ih

/-- The last field of `str::split(sep)` is the text after the last occurrence
of `sep`: it contains no `sep`, and when `sep` occurs in the string at all,
the string decomposes as `pre ++ sep :: last`. -/
theorem splitOn_getLast_spec (sep : Char) :
    ∀ s : Str, sep ∈ s →
      ∃ pre t, s = pre ++ sep :: t ∧ sep ∉ t ∧ (splitOn sep s).getLast? = some t
  | [], h => absurd h (List.not_mem_nil sep)
  | c :: rest, h => by
    by_cases hc : c = sep
    · subst hc
      by_cases hr : c ∈ rest
      · obtain ⟨pre, t, heq, hnot, hlast⟩ := splitOn_getLast_spec c rest hr
        refine ⟨c :: pre, t, by rw [heq]; rfl, hnot, ?_⟩
        cases hsp : splitOn c rest with
        | nil => exact absurd hsp (splitOn_ne_nil c rest)
        | cons f fs =>
          rw [hsp] at hlast
          simp [splitOn, hsp, List.getLast?_cons_cons, hlast]
      · refine ⟨[], rest, rfl, hr, ?_⟩
        simp [splitOn, splitOn_of_not_mem c rest hr]
    · have hr : sep ∈ rest := by
        rcases List.mem_cons.mp h with h1 | h1
        · exact absurd h1.symm hc
        · exact h1
      obtain ⟨pre, t, heq, hnot, hlast⟩ := splitOn_getLast_spec sep rest hr
      refine ⟨c :: pre, t, by rw [heq]; rfl, hnot, ?_⟩
      have hlen := two_le_splitOn_of_mem sep rest hr
      simp only [splitOn, if_neg hc]
      cases hsp : splitOn sep rest with
      | nil => exact absurd hsp (splitOn_ne_nil sep rest)
      | cons f fs =>
        cases fs with
        | nil => rw [hsp] at hlen; simp at hlen
        | cons g gs =>
          rw [hsp] at hlast
          rw [List.getLast?_cons_cons]
          rw [List.getLast?_cons_cons] at hlast
          exact hlast

/-- An all-literal compiled pattern matches exactly the emails it is a
case-insensitive prefix of (start-anchored, end-free). -/
theorem patMatches_lits : ∀ cs es : Str, patMatches (cs.map PatTok.lit) es = prefCI cs es
  | [], [] => rfl
  | [], _ :: _ => rfl
  | _ :: _, [] => rfl
  | c :: cs, e :: es => by
    simp only [List.map_cons, patMatches, prefCI, patMatches_lits cs es]

/-- `anySuffix` only looks at its function argument pointwise. -/
theorem anySuffix_congr {f g : Str → Bool} (h : ∀ t, f t = g t) :
    ∀ es : Str, anySuffix f es = anySuffix g es
  | [] => h []
  | e :: es => by simp only [anySuffix, h (e :: es), anySuffix_congr h es]

/-- `containsCI` is the suffix-wise closure of the case-insensitive prefix
test. -/
theorem containsCI_eq_anySuffix (pat : Str) :
    ∀ es : Str, containsCI pat es = anySuffix (prefCI pat) es
  | [] => rfl
  | e :: es => by simp only [containsCI, anySuffix, containsCI_eq_anySuffix pat es]

/-- A `*`-then-literals compiled pattern matches exactly the emails that
contain the literal text case-insensitively. -/
theorem star_lits (cs es : Str) :
    patMatches (PatTok.star :: cs.map PatTok.lit) es = containsCI cs es := by
  simp only [patMatches, containsCI_eq_anySuffix]
  exact anySuffix_congr (fun t => patMatches_lits cs t) es

/-- Transitivity of the byte-order comparison. -/
theorem strLe_trans : ∀ x y z : Str, strLe x y = true → strLe y z = true → strLe x z = true
  | [], _, _, _, _ => rfl
  | _ :: _, [], _, hxy, _ => by simp [strLe] at hxy
  | _ :: _, _ :: _, [], _, hyz => by simp [strLe] at hyz
  | a :: as, b :: bs, c :: cs, hxy, hyz => by
    simp only [strLe, Bool.or_eq_true, Bool.and_eq_true, decide_eq_true_eq, beq_iff_eq]
      at hxy hyz ⊢
    rcases hxy with h1 | ⟨rfl, h2⟩
    · rcases hyz with h3 | ⟨rfl, h4⟩
      · exact Or.inl (lt_trans h1 h3)
      · exact Or.inl h1
    · rcases hyz with h3 | ⟨rfl, h4⟩
      · exact Or.inl h3
      · exact Or.inr ⟨rfl, strLe_trans as bs cs h2 h4⟩

/-- Totality of the byte-order comparison. -/
theorem strLe_total : ∀ x y : Str, (strLe x y || strLe y x) = true
  | [], _ => rfl
  | _ :: _, [] => rfl
  | a :: as, b :: bs => by
    simp only [strLe, Bool.or_eq_true, Bool.and_eq_true, decide_eq_true_eq, beq_iff_eq]
    rcases lt_trichotomy a b with h | rfl | h
    · exact Or.inl (Or.inl h)
    · have := strLe_total as bs
      simp only [Bool.or_eq_true] at this
      rcases this with h | h
      · exact Or.inl (Or.inr ⟨rfl, h⟩)
      · exact Or.inr (Or.inr ⟨rfl, h⟩)
    · exact Or.inr (Or.inl h)

/-- Membership in the violation list: the sort is a permutation of the
filter, so an email is reported exactly when it is an input email and the
existential rule test accepts it. -/
theorem mem_find_violations (mx : MxLookup) (emails : List Str) (rules : List Rule) (x : Str) :
    x ∈ find_violations mx emails rules ↔
      x ∈ emails ∧ rules.any (fun re => unwrapOr (is_match mx re x) false) = true := by
  unfold find_violations
  rw [(List.mergeSort_perm _ _).mem_iff, List.mem_filter]

/-! ### Claim theorems -/

/-- C1, counterexample. The compiled rule `*@domain.com` matches the email
`a@domain.com.evil.org`, which does not end in `@domain.com`
(case-insensitively) and whose domain (the text after the last `@`) is
`domain.com.evil.org`, not `domain.com`. So the claim's "matches only if the
email ends in `@domain.com`" and "matches nothing whose domain differs" are
both false of the code: the regex `(?i)^.*@domain\.com` has no end anchor. -/
theorem c1_counterexample :
    compileRule (strOf "*@domain.com") =
        some (Rule.regex (PatTok.star :: (strOf "@domain.com").map PatTok.lit)) ∧
      patMatches (PatTok.star :: (strOf "@domain.com").map PatTok.lit)
          (strOf "a@domain.com.evil.org") = true ∧
      endsWithCI (strOf "@domain.com") (strOf "a@domain.com.evil.org") = false ∧
      (splitOn '@' (strOf "a@domain.com.evil.org")).getLast? =
        some (strOf "domain.com.evil.org") :=
  ⟨by decide, by decide, by decide, by decide⟩

/-- C1, amended. The compiled wildcard rule `*@domain.com` matches an email
iff the email contains `@domain.com` case-insensitively anywhere (as a
prefix of some suffix); in particular every email ending in `@domain.com`
matches, but so do some emails with a different domain. -/
theorem c1_wildcard_contains (email : Str) :
    compileRule (strOf "*@domain.com") =
        some (Rule.regex (PatTok.star :: (strOf "@domain.com").map PatTok.lit)) ∧
      patMatches (PatTok.star :: (strOf "@domain.com").map PatTok.lit) email =
        containsCI (strOf "@domain.com") email :=
  ⟨by decide, star_lits (strOf "@domain.com") email⟩

/-- C2. A compiled pattern rule is anchored only at the start: an all-literal
pattern matches exactly the emails it is a case-insensitive prefix of (no
end-of-string requirement), and concretely the rule text `abc@x.com`
(containing no `*`) matches the email `abc@x.com.evil.org`. -/
theorem c2_start_anchored_only :
    (∀ cs es : Str, patMatches (cs.map PatTok.lit) es = prefCI cs es) ∧
      compileRule (strOf "abc@x.com") =
        some (Rule.regex ((strOf "abc@x.com").map PatTok.lit)) ∧
      patMatches ((strOf "abc@x.com").map PatTok.lit) (strOf "abc@x.com.evil.org") = true :=
  ⟨patMatches_lits, by decide, by decide⟩

/-- C3. For every resolver, email list (a set: no duplicates) and rule list,
`find_violations` returns a list sorted ascending in the byte/code-point
order on strings, with no duplicate entries. -/
theorem c3_sorted_nodup (mx : MxLookup) (emails : List Str) (rules : List Rule)
    (h : emails.Nodup) :
    List.Pairwise (fun a b => strLe a b = true) (find_violations mx emails rules) ∧
      (find_violations mx emails rules).Nodup := by
  constructor
  · exact List.sorted_mergeSort strLe_trans strLe_total _
  · exact ((List.mergeSort_perm _ strLe).symm.nodup (h.filter _))

/-- C3, witness at a concrete input. -/
theorem c3_witness :
    ([strOf "b@x.com", strOf "a@x.com"] : List Str).Nodup ∧
      (List.Pairwise (fun a b => strLe a b = true)
          (find_violations mxNone [strOf "b@x.com", strOf "a@x.com"]
            (compile_rules [strOf "*@x.com"])) ∧
        (find_violations mxNone [strOf "b@x.com", strOf "a@x.com"]
            (compile_rules [strOf "*@x.com"])).Nodup) :=
  ⟨by decide, c3_sorted_nodup mxNone _ _ (by decide)⟩

/-- C4. An input email appears in the output of `find_violations` iff at
least one rule matches it, where a failed rule evaluation (`Except.error`,
e.g. a DNS error of an MX rule) counts as "no match" for that pair via
`unwrap_or(false)` and never aborts the evaluation of other rules or
emails — the result is total and still reports emails matched by other
rules. -/
theorem c4_membership (mx : MxLookup) (emails : List Str) (rules : List Rule) (email : Str)
    (h : email ∈ emails) :
    email ∈ find_violations mx emails rules ↔
      ∃ re ∈ rules, unwrapOr (is_match mx re email) false = true := by
  rw [mem_find_violations]
  simp [h, List.any_eq_true]

/-- C4, witness: with a resolver that fails every lookup, the erroring
MX rule is "no match" but the email is still reported via the pattern rule. -/
theorem c4_witness :
    strOf "abc@hotmail.com" ∈ [strOf "abc@hotmail.com"] ∧
      (strOf "abc@hotmail.com" ∈
          find_violations mxNone [strOf "abc@hotmail.com"]
            (compile_rules [strOf "MX-RECORD,mail.com", strOf "*@hotmail.com"]) ↔
        ∃ re ∈ compile_rules [strOf "MX-RECORD,mail.com", strOf "*@hotmail.com"],
          unwrapOr (is_match mxNone re (strOf "abc@hotmail.com")) false = true) :=
  ⟨by decide, c4_membership mxNone _ _ _ (by decide)⟩

/-- C5. The failing input: the email `abc` contains no `@`, yet the MX rule
does not return `Ok(false)`: `email.split('@').next_back()` is always
`Some` (here `Some("abc")` — the whole email), so the code performs the MX
lookup on the email text itself; with a resolver that resolves `abc` to
exchange `host.` the rule even returns `Ok(true)`, and with a failing
resolver it returns the error (swallowed upstream), never the claimed
lookup-free `false`. The `else` branch returning `Ok(false)` is dead code. -/
theorem c5_code_bug :
    (strOf "abc").contains '@' = false ∧
      (splitOn '@' (strOf "abc")).getLast? = some (strOf "abc") ∧
      is_match mxAbc (Rule.mxRecord (strOf "host")) (strOf "abc") = Except.ok true ∧
      is_match mxNone (Rule.mxRecord (strOf "host")) (strOf "abc") = Except.error () :=
  ⟨by decide, by decide, rfl, rfl⟩

/-- C6. The failing input: `rule.split(",").last()` is always `Some` (split
yields at least one field), so the "skip malformed MX rule" branch is
unreachable; even the line `MX-RECORD,` with nothing after the comma is not
skipped — it compiles to an `MxRecordRule` with empty expected host. -/
theorem c6_code_bug :
    (∀ rule : Str, ((splitOn ',' rule).getLast?).isSome = true) ∧
      compile_rules [strOf "MX-RECORD,"] = [Rule.mxRecord []] :=
  ⟨fun rule => List.getLast?_isSome.mpr (splitOn_ne_nil ',' rule), by decide⟩

/-- C7, counterexample. For the rule line `MX-RECORD,a,b` the compiled
expected host is `b` (the last field of `split(",")`), not the text `a,b`
following the first comma as claimed. -/
theorem c7_counterexample :
    compileRule (strOf "MX-RECORD,a,b") = some (Rule.mxRecord (strOf "b")) ∧
      decide (compileRule (strOf "MX-RECORD,a,b") = some (Rule.mxRecord (strOf "a,b"))) =
        false :=
  ⟨by decide, by decide⟩

/-- C7, amended. For every rule line beginning with `MX-RECORD,`, the
compiled expected host is the raw text following the LAST `,` of the line:
the line decomposes as `pre ++ "," ++ host` with `host` comma-free, and the
rule compiles to `MxRecordRule host`. -/
theorem c7_last_field (rule : Str) (h : mxPref.isPrefixOf rule = true) :
    ∃ pre host : Str, rule = pre ++ ',' :: host ∧ host.contains ',' = false ∧
      compileRule rule = some (Rule.mxRecord host) := by
  have hmem : ',' ∈ rule := by
    have hpre : mxPref <+: rule := List.isPrefixOf_iff_prefix.mp h
    exact hpre.subset (by decide)
  obtain ⟨pre, t, heq, hnot, hlast⟩ := splitOn_getLast_spec ',' rule hmem
  refine ⟨pre, t, heq, by simpa using hnot, ?_⟩
  simp [compileRule, h, hlast]

/-- C7, witness at the concrete input `MX-RECORD,a,b`. -/
theorem c7_witness :
    mxPref.isPrefixOf (strOf "MX-RECORD,a,b") = true ∧
      (∃ pre host : Str, strOf "MX-RECORD,a,b" = pre ++ ',' :: host ∧
        host.contains ',' = false ∧
        compileRule (strOf "MX-RECORD,a,b") = some (Rule.mxRecord host)) :=
  ⟨by decide, c7_last_field (strOf "MX-RECORD,a,b") (by decide)⟩

/-- C8. When the MX lookup of the host (the text after the last `@` of the
email) succeeds with a list of exchange hostnames, the MX rule returns
`Ok(true)` iff some returned exchange, after stripping exactly one trailing
dot if present, is equal — byte for byte, with no case folding and no
subdomain logic — to the expected host. -/
theorem c8_mx_exact (mx : MxLookup) (record email host : Str) (exchanges : List Str)
    (h1 : (splitOn '@' email).getLast? = some host)
    (h2 : mx host = Except.ok exchanges) :
    is_match mx (Rule.mxRecord record) email = Except.ok true ↔
      ∃ ex ∈ exchanges, stripDot ex = record := by
  simp [is_match, h1, h2, Except.map, List.any_eq_true]

/-- C8, witness: `d.com` resolves to `mx.d.com.` (dot-stripped to
`mx.d.com`) and `Alt.example.`; the rule expecting `mx.d.com` matches. -/
theorem c8_witness :
    (splitOn '@' (strOf "u@d.com")).getLast? = some (strOf "d.com") ∧
      mxDcom (strOf "d.com") = Except.ok [strOf "mx.d.com.", strOf "Alt.example."] ∧
      (is_match mxDcom (Rule.mxRecord (strOf "mx.d.com")) (strOf "u@d.com") = Except.ok true ↔
        ∃ ex ∈ [strOf "mx.d.com.", strOf "Alt.example."], stripDot ex = strOf "mx.d.com") :=
  ⟨by decide, rfl, c8_mx_exact mxDcom (strOf "mx.d.com") (strOf "u@d.com") (strOf "d.com")
    [strOf "mx.d.com.", strOf "Alt.example."] (by decide) rfl⟩

/-- C9. `read_emails` applies no filtering: a string is an element of the
email set iff it is a line of the file — blank lines and `#`-lines
included — and only exact duplicates are collapsed (the set has no
duplicates). Concretely, a comment line and a blank line both survive. -/
theorem c9_no_filtering (content : Str) :
    (∀ l : Str, l ∈ read_emails content ↔ l ∈ linesOf content) ∧
      (read_emails content).Nodup ∧
      read_emails (strOf "#comment\n\nreal@x.com") =
        [strOf "#comment", [], strOf "real@x.com"] :=
  ⟨fun _ => List.mem_dedup, List.nodup_dedup _, by decide⟩

/-- C10. A non-MX rule line is trimmed before pattern compilation: two
wildcard rule lines with the same trimmed text compile to the same rule,
and hence match exactly the same emails under every resolver. -/
theorem c10_trim (p r : Str)
    (hp : mxPref.isPrefixOf p = false) (hr : mxPref.isPrefixOf r = false)
    (h : trimStr p = trimStr r) :
    compileRule p = compileRule r ∧
      ∀ (mx : MxLookup) (email : Str),
        Option.elim (compileRule p) false
            (fun rule => unwrapOr (is_match mx rule email) false) =
          Option.elim (compileRule r) false
            (fun rule => unwrapOr (is_match mx rule email) false) := by
  have hcomp : compileRule p = compileRule r := by
    simp [compileRule, hp, hr, h]
  exact ⟨hcomp, fun mx email => by rw [hcomp]⟩

/-- C10, witness: `"  *@x.com  "` versus `"*@x.com"`. -/
theorem c10_witness :
    mxPref.isPrefixOf (strOf "  *@x.com  ") = false ∧
      mxPref.isPrefixOf (strOf "*@x.com") = false ∧
      trimStr (strOf "  *@x.com  ") = trimStr (strOf "*@x.com") ∧
      (compileRule (strOf "  *@x.com  ") = compileRule (strOf "*@x.com") ∧
        ∀ (mx : MxLookup) (email : Str),
          Option.elim (compileRule (strOf "  *@x.com  ")) false
              (fun rule => unwrapOr (is_match mx rule email) false) =
            Option.elim (compileRule (strOf "*@x.com")) false
              (fun rule => unwrapOr (is_match mx rule email) false)) :=
  ⟨by decide, by decide, by decide, c10_trim _ _ (by decide) (by decide) (by decide)⟩

end CheckCommitsEmail
